import Mathlib

/-!
Verification of the repeated-substring detection engine of `src/app.py`.

The source is a single Python file.  Its core is the function
`find_repeated_sequences(data_rows, min_length_for_search)` (lines 11-67),
which enumerates all substrings of length at least `L` of every retained
sentence, keeps those supported by more than one source row, and reports
every occurrence with a left-to-right `str.find` scan advancing one
character after each hit.  Downstream, the script assigns each emitted
sequence to exactly one length bucket (lines 109-128) and flattens
deduplicated export rows (lines 162-177).

Python strings are embedded as `List Char`; a raw CSV cell is a `PyVal`
(either a string or the float NaN that pandas produces for a missing
cell).  All definitions below are direct translations of the source.
-/

namespace MrcRpc

/-- Raw value of one CSV cell as handed to `find_repeated_sequences`:
either a Python string or the float NaN that pandas uses for a missing
cell. -/
inductive PyVal where
  | str (s : List Char)
  | nan
  deriving DecidableEq, Repr

/-- Python `str(v)`: the identity on strings; `str(float('nan'))` is the
three-character string `"nan"`. -/
def pyStr : PyVal → List Char
  | .str s => s
  | .nan => ['n', 'a', 'n']

/-- The guard `pd.isna(sentence)` at line 35 of `src/app.py` is evaluated
after `sentence = str(row_data[1])` (line 33), so its argument is always a
Python `str`; `pandas.isna` returns `False` on every `str` value (only
`None` and float NaN are "na").  The check is therefore constantly false
in the source. -/
def pdIsnaStr (_s : List Char) : Bool := false

/-- One element of the `source_tuple` set built at lines 43-44 of
`src/app.py`: `(original_csv_row_number, task_id, full_sentence)`. -/
structure SourceTuple where
  rowNum : Nat
  taskId : List Char
  sentence : List Char
  deriving DecidableEq, Repr

/-- Lines 30-33 of `src/app.py`: row at dataframe index `idx` gets
`original_csv_row_number = idx + 2`, `task_id = str(row_data[0])` when
present (else `"N/A"`), and `sentence = str(row_data[1])` when present
(else `""`). -/
def rowToSource (idx : Nat) (row : List PyVal) : SourceTuple where
  rowNum := idx + 2
  taskId := match row with
    | [] => ['N', '/', 'A']
    | v :: _ => pyStr v
  sentence := match row with
    | _ :: v :: _ => pyStr v
    | _ => []

/-- The `enumerate(data_rows)` loop of line 29: every row becomes a
source tuple, indexed from `idx`. -/
def mkSources : Nat → List (List PyVal) → List SourceTuple
  | _, [] => []
  | idx, row :: rest => rowToSource idx row :: mkSources (idx + 1) rest

/-- Line 35 of `src/app.py`: a row is processed (not `continue`d) iff
`not (pd.isna(sentence) or len(sentence) < min_length_for_search)`. -/
def keepRow (L : Nat) (t : SourceTuple) : Bool :=
  !pdIsnaStr t.sentence && decide (L ≤ t.sentence.length)

/-- The rows that survive the guard of line 35 and generate substrings. -/
def keptSources (dataRows : List (List PyVal)) (L : Nat) : List SourceTuple :=
  (mkSources 0 dataRows).filter (keepRow L)

/-- Python slice `sentence[i : i + k]`. -/
def sublistAt (s : List Char) (i k : Nat) : List Char :=
  (s.drop i).take k

/-- Lines 40-42 of `src/app.py`: all substrings generated from one
sentence, `for i in range(len(sentence) - L + 1): for k in
range(L, len(sentence) - i + 1): sub = sentence[i : i + k]`. -/
def genSubs (sent : List Char) (L : Nat) : List (List Char) :=
  (List.range (sent.length - L + 1)).flatMap (fun i =>
    (List.range' L (sent.length - i + 1 - L)).map (fun k => sublistAt sent i k))

/-- The value `all_substrings_sources[sub]` of lines 27-44: the set of
source tuples whose sentence generated `sub`.  Kept rows have pairwise
distinct `rowNum`, so this duplicate-free list has the cardinality of the
Python set. -/
def supportOf (dataRows : List (List PyVal)) (L : Nat) (sub : List Char) :
    List SourceTuple :=
  (keptSources dataRows L).filter (fun t => decide (sub ∈ genSubs t.sentence L))

/-- Record ids (csv row numbers) of the rows supporting `sub`. -/
def supportIds (dataRows : List (List PyVal)) (L : Nat) (sub : List Char) :
    List Nat :=
  (supportOf dataRows L sub).map SourceTuple.rowNum

/-- Whether `sub` occurs in `sent` at position `i`, the success condition
of Python `full_sent.find(sub_text, i) == i`. -/
def occursAt (sent sub : List Char) (i : Nat) : Bool :=
  decide (sublistAt sent i sub.length = sub)

/-- Fuel-indexed scan implementing Python `full_sent.find(sub, start)`:
the least position `i ≥ start` with `i ≤ len(full_sent)` at which `sub`
occurs, scanning one position at a time. -/
def strFindAux (sent sub : List Char) : Nat → Nat → Option Nat
  | 0, _ => none
  | fuel + 1, start =>
    if sent.length < start then none
    else if occursAt sent sub start then some start
    else strFindAux sent sub fuel (start + 1)

/-- Python `full_sent.find(sub_text, start)` (line 56), with `none` for
the sentinel `-1`. -/
def strFind (sent sub : List Char) (start : Nat) : Option Nat :=
  strFindAux sent sub (sent.length + 1 - start) start

/-- The `while True` loop of lines 54-62 of `src/app.py`: repeatedly
`find` from `start`, record the hit, and continue from `start + 1`
(overlapping hits included).  Fuel `len(sent) + 1` suffices since `start`
strictly increases and `find` fails beyond `len(sent)`. -/
def findAllFromAux (sent sub : List Char) : Nat → Nat → List Nat
  | 0, _ => []
  | fuel + 1, start =>
    match strFind sent sub start with
    | none => []
    | some i => i :: findAllFromAux sent sub fuel (i + 1)

/-- All start offsets of `sub` inside `sent`, in scan order. -/
def occurrencesIn (sent sub : List Char) : List Nat :=
  findAllFromAux sent sub (sent.length + 1) 0

/-- One element of `occurrences_list` (line 59 of `src/app.py`):
`(csv_row_num, task_id, full_sentence, start_idx)`. -/
structure Occ where
  rowNum : Nat
  taskId : List Char
  sentence : List Char
  off : Nat
  deriving DecidableEq, Repr

/-- Lines 51-62 of `src/app.py`: the occurrence list of an emitted
sequence, one block per supporting source tuple. -/
def occurrencesOf (dataRows : List (List PyVal)) (L : Nat) (sub : List Char) :
    List Occ :=
  (supportOf dataRows L sub).flatMap (fun t =>
    (occurrencesIn t.sentence sub).map (fun j => ⟨t.rowNum, t.taskId, t.sentence, j⟩))

/-- Lines 49-65 of `src/app.py`: `sub` is a key of the returned
`repeated_sequences` dict iff its source set has more than one element
and its occurrence list is non-empty. -/
def isEmitted (dataRows : List (List PyVal)) (L : Nat) (sub : List Char) : Bool :=
  decide (2 ≤ (supportOf dataRows L sub).length) &&
  decide (occurrencesOf dataRows L sub ≠ [])

/-- Line 7 of `src/app.py`. -/
def CHECK_LENGTHS : List Nat := [20, 40, 60]

/-- Python `sorted(l, reverse=True)` (line 112). -/
def sortDesc (l : List Nat) : List Nat :=
  List.insertionSort (· ≥ ·) l

/-- Lines 112-128 of `src/app.py`: walk the thresholds in descending
order and assign the sequence to the first (hence greatest) threshold not
exceeding its length, breaking out of the loop; `none` when every
threshold exceeds the length. -/
def bucketOf (thresholds : List Nat) (len : Nat) : Option Nat :=
  (sortDesc thresholds).find? (fun t => decide (t ≤ len))

/-- One row of `export_data_for_category` (lines 171-177 of
`src/app.py`): Repeated Sequence, Length of Sequence, Original CSV Row
Number, Task ID, Full Sentence.  The start offset is not exported. -/
structure ExportRow where
  sequence : List Char
  length : Nat
  rowNum : Nat
  taskId : List Char
  sentence : List Char
  deriving DecidableEq, Repr

/-- The export row built from a `(sequence, occurrence)` pair. -/
def mkExportRow (seq : List Char) (o : Occ) : ExportRow :=
  ⟨seq, seq.length, o.rowNum, o.taskId, o.sentence⟩

/-- The `entry_key` of line 168 of `src/app.py`:
`(seq, original_csv_row_number, task_id, sentence)`. -/
def rKey (r : ExportRow) : List Char × Nat × List Char × List Char :=
  (r.sequence, r.rowNum, r.taskId, r.sentence)

/-- Lines 162-177 of `src/app.py`: iterate over the flattened
`(sequence, occurrence)` pairs, skipping any pair whose `entry_key` was
already seen, otherwise appending the export row and recording the key. -/
def exportLoop : List (List Char × Occ) →
    List (List Char × Nat × List Char × List Char) → List ExportRow
  | [], _ => []
  | (seq, o) :: rest, seen =>
    if rKey (mkExportRow seq o) ∈ seen then exportLoop rest seen
    else mkExportRow seq o :: exportLoop rest (rKey (mkExportRow seq o) :: seen)

/-- The full `export_data_for_category` list for one category, a list of
`(sequence, occurrences)` groups. -/
def exportRows (cat : List (List Char × List Occ)) : List ExportRow :=
  exportLoop (cat.flatMap (fun p => p.2.map (fun o => (p.1, o)))) []

/-- The length-`L` windows of a sentence. -/
def windowsOf (sent : List Char) (L : Nat) : List (List Char) :=
  (List.range (sent.length + 1 - L)).map (fun i => sublistAt sent i L)

/-- Modelled from the spec: the fixed-window operating mode (spec section
4.2) is absent from `src/app.py`, whose `find_repeated_sequences` takes
no mode selector.  Following the spec's words, this mode groups all
length-`L` windows of the record texts by exact text and retains the
groups spanning at least two distinct records. -/
def fixedWindowEmitted (dataRows : List (List PyVal)) (L : Nat) (sub : List Char) :
    Bool :=
  decide (sub.length = L) &&
  decide (2 ≤ ((mkSources 0 dataRows).filter
    (fun t => decide (sub ∈ windowsOf t.sentence L))).length)

/-- Two rows sharing the sentence "ab". -/
def exRows : List (List PyVal) :=
  [[PyVal.str ['1'], PyVal.str ['a', 'b']], [PyVal.str ['2'], PyVal.str ['a', 'b']]]

/-- Two rows sharing the sentence "abc". -/
def exRowsAbc : List (List PyVal) :=
  [[PyVal.str ['1'], PyVal.str ['a', 'b', 'c']],
   [PyVal.str ['2'], PyVal.str ['a', 'b', 'c']]]

/-- Two rows whose text cell is the float NaN. -/
def nanRows : List (List PyVal) :=
  [[PyVal.str ['1'], PyVal.nan], [PyVal.str ['2'], PyVal.nan]]

/-- One category group: the sequence "aa" with two overlapping
occurrences, at offsets 0 and 1, inside the single record 2. -/
def exCategory : List (List Char × List Occ) :=
  [(['a', 'a'], [⟨2, ['t'], ['a', 'a', 'a'], 0⟩, ⟨2, ['t'], ['a', 'a', 'a'], 1⟩])]

/-- Any position returned by the bounded scan is a genuine hit at or
after the scan start and within the sentence. -/
lemma strFindAux_some (sent sub : List Char) :
    ∀ (fuel start i : Nat), strFindAux sent sub fuel start = some i →
      start ≤ i ∧ i ≤ sent.length ∧ occursAt sent sub i = true := by
  intro fuel
  induction fuel with
  | zero => intro start i h; simp [strFindAux] at h
  | succ fuel ih =>
    intro start i h
    unfold strFindAux at h
    by_cases hlt : sent.length < start
    · simp [hlt] at h
    · simp only [if_neg hlt] at h
      by_cases hocc : occursAt sent sub start = true
      · rw [if_pos hocc] at h
        have : start = i := Option.some.inj h
        subst this
        exact ⟨Nat.le_refl _, by omega, hocc⟩
      · rw [if_neg hocc] at h
        have h3 := ih (start + 1) i h
        exact ⟨by omega, h3.2.1, h3.2.2⟩

/-- If a hit exists at or after the scan start, a sufficiently fuelled
scan finds one no later than it. -/
lemma strFindAux_complete (sent sub : List Char) :
    ∀ (fuel start j : Nat), start ≤ j → occursAt sent sub j = true →
      j ≤ sent.length → sent.length < start + fuel →
      ∃ i, strFindAux sent sub fuel start = some i ∧ i ≤ j := by
  intro fuel
  induction fuel with
  | zero => intro start j h1 _ h3 h4; omega
  | succ fuel ih =>
    intro start j h1 h2 h3 h4
    have hlt : ¬ sent.length < start := by omega
    by_cases hocc : occursAt sent sub start = true
    · refine ⟨start, ?_, h1⟩
      unfold strFindAux
      rw [if_neg hlt, if_pos hocc]
    · have hne : start ≠ j := by
        intro e; rw [e] at hocc; exact hocc h2
      obtain ⟨i, hi, hij⟩ := ih (start + 1) j (by omega) h2 h3 (by omega)
      refine ⟨i, ?_, hij⟩
      unfold strFindAux
      rw [if_neg hlt, if_neg hocc]
      exact hi

/-- Soundness of the embedded Python `find`. -/
lemma strFind_some (sent sub : List Char) (start i : Nat)
    (h : strFind sent sub start = some i) :
    start ≤ i ∧ i ≤ sent.length ∧ occursAt sent sub i = true :=
  strFindAux_some sent sub _ start i h

/-- Completeness of the embedded Python `find`. -/
lemma strFind_complete (sent sub : List Char) (start j : Nat)
    (h1 : start ≤ j) (h2 : occursAt sent sub j = true) (h3 : j ≤ sent.length) :
    ∃ i, strFind sent sub start = some i ∧ i ≤ j :=
  strFindAux_complete sent sub _ start j h1 h2 h3 (by omega)

/-- Every offset collected by the `while` loop is a genuine hit. -/
lemma findAllFromAux_sound (sent sub : List Char) :
    ∀ (fuel start : Nat), ∀ j ∈ findAllFromAux sent sub fuel start,
      start ≤ j ∧ j ≤ sent.length ∧ occursAt sent sub j = true := by
  intro fuel
  induction fuel with
  | zero => intro start j h; simp [findAllFromAux] at h
  | succ fuel ih =>
    intro start j h
    unfold findAllFromAux at h
    cases hf : strFind sent sub start with
    | none => rw [hf] at h; simp at h
    | some i =>
      rw [hf] at h
      have hs := strFind_some sent sub start i hf
      rcases List.mem_cons.mp h with he | hm
      · subst he; exact hs
      · have h3 := ih (i + 1) j hm
        exact ⟨by omega, h3.2.1, h3.2.2⟩

/-- The offsets collected by the `while` loop are strictly increasing. -/
lemma findAllFromAux_pairwise (sent sub : List Char) :
    ∀ (fuel start : Nat),
      List.Pairwise (· < ·) (findAllFromAux sent sub fuel start) := by
  intro fuel
  induction fuel with
  | zero => intro start; simp [findAllFromAux]
  | succ fuel ih =>
    intro start
    unfold findAllFromAux
    cases hf : strFind sent sub start with
    | none => simp
    | some i =>
      refine List.Pairwise.cons ?_ (ih (i + 1))
      intro j hj
      have := (findAllFromAux_sound sent sub fuel (i + 1) j hj).1
      omega

/-- Every genuine hit at a position inside the sentence is collected by a
sufficiently fuelled `while` loop. -/
lemma findAllFromAux_complete (sent sub : List Char) :
    ∀ (fuel start j : Nat), start ≤ j → occursAt sent sub j = true →
      j ≤ sent.length → sent.length + 1 ≤ fuel + start →
      j ∈ findAllFromAux sent sub fuel start := by
  intro fuel
  induction fuel with
  | zero => intro start j h1 _ h3 h4; omega
  | succ fuel ih =>
    intro start j h1 h2 h3 h4
    obtain ⟨i, hi, hij⟩ := strFind_complete sent sub start j h1 h2 h3
    have hs := strFind_some sent sub start i hi
    unfold findAllFromAux
    rw [hi]
    rcases Nat.eq_or_lt_of_le hij with he | hl
    · rw [he]; exact List.mem_cons_self _ _
    · exact List.mem_cons_of_mem _ (ih (i + 1) j (by omega) h2 h3 (by omega))

/-- Soundness of the occurrence list of one sentence. -/
lemma occurrencesIn_sound (sent sub : List Char) (j : Nat)
    (h : j ∈ occurrencesIn sent sub) :
    j ≤ sent.length ∧ occursAt sent sub j = true :=
  (findAllFromAux_sound sent sub (sent.length + 1) 0 j h).2

/-- The occurrence list of one sentence is strictly ascending. -/
lemma occurrencesIn_pairwise (sent sub : List Char) :
    List.Pairwise (· < ·) (occurrencesIn sent sub) :=
  findAllFromAux_pairwise sent sub (sent.length + 1) 0

/-- Completeness of the occurrence list of one sentence. -/
lemma occurrencesIn_complete (sent sub : List Char) (j : Nat)
    (h1 : occursAt sent sub j = true) (h2 : j ≤ sent.length) :
    j ∈ occurrencesIn sent sub :=
  findAllFromAux_complete sent sub (sent.length + 1) 0 j (Nat.zero_le j) h1 h2
    (by omega)

/-- Characterisation of the substrings generated by the nested loops of
lines 40-42: exactly the contiguous substrings of length at least `L`. -/
lemma mem_genSubs_iff (sent : List Char) (L : Nat) (sub : List Char) :
    sub ∈ genSubs sent L ↔
      ∃ i k, L ≤ k ∧ i + k ≤ sent.length ∧ sublistAt sent i k = sub := by
  unfold genSubs
  constructor
  · intro h
    rw [List.mem_flatMap] at h
    obtain ⟨i, hi, h⟩ := h
    rw [List.mem_map] at h
    obtain ⟨k, hk, he⟩ := h
    rw [List.mem_range] at hi
    rw [List.mem_range'_1] at hk
    exact ⟨i, k, by omega, by omega, he⟩
  · rintro ⟨i, k, hLk, hik, he⟩
    rw [List.mem_flatMap]
    refine ⟨i, ?_, ?_⟩
    · rw [List.mem_range]; omega
    · rw [List.mem_map]
      exact ⟨k, by rw [List.mem_range'_1]; omega, he⟩

/-- A generated substring has length at least `L` and occurs at a
position inside the generating sentence. -/
lemma mem_genSubs_length (sent : List Char) (L : Nat) (sub : List Char)
    (h : sub ∈ genSubs sent L) :
    L ≤ sub.length ∧ ∃ i, i ≤ sent.length ∧ occursAt sent sub i = true := by
  rw [mem_genSubs_iff] at h
  obtain ⟨i, k, hLk, hik, he⟩ := h
  have hlen : sub.length = k := by
    rw [← he]
    unfold sublistAt
    rw [List.length_take, List.length_drop]
    omega
  refine ⟨by omega, i, by omega, ?_⟩
  unfold occursAt
  rw [hlen, decide_eq_true_eq]
  exact he

/-- A contiguous slice, of length at least `L`, of a generated substring
is itself generated. -/
lemma genSubs_slice_closed {sent S S' : List Char} {L : Nat}
    (hS : S ∈ genSubs sent L) (a : Nat) (hsub : sublistAt S a S'.length = S')
    (hL : L ≤ S'.length) : S' ∈ genSubs sent L := by
  by_cases hS' : S' = []
  · subst hS'
    rw [mem_genSubs_iff]
    refine ⟨0, 0, by simpa using hL, by omega, rfl⟩
  · have hS'len : 1 ≤ S'.length := by
      cases S' with
      | nil => exact absurd rfl hS'
      | cons c cs => simp
    rw [mem_genSubs_iff] at hS ⊢
    obtain ⟨i, k, hLk, hik, he⟩ := hS
    have hSlen : S.length = k := by
      rw [← he]
      unfold sublistAt
      rw [List.length_take, List.length_drop]
      omega
    have hlen' : S'.length ≤ k - a := by
      have hc := congrArg List.length hsub
      unfold sublistAt at hc
      rw [List.length_take, List.length_drop, hSlen] at hc
      omega
    have key : ∀ b : Nat, b ≤ k - a → sublistAt sent (i + a) b = sublistAt S a b := by
      intro b hb
      rw [← he]
      unfold sublistAt
      rw [List.drop_take, List.drop_drop, List.take_take]
      have hmin : b ⊓ (k - a) = b := by omega
      rw [hmin]
    exact ⟨i + a, S'.length, hL, by omega, (key S'.length hlen').trans hsub⟩

/-- The support of a slice (of length at least `L`) of `S` extends the
support of `S`: every row generating `S` also generates the slice. -/
lemma supportOf_mono (dataRows : List (List PyVal)) (L : Nat) {S S' : List Char}
    (a : Nat) (hsub : sublistAt S a S'.length = S') (hL : L ≤ S'.length) :
    (supportOf dataRows L S).Sublist (supportOf dataRows L S') := by
  unfold supportOf
  apply List.monotone_filter_right
  intro t ht
  rw [decide_eq_true_eq] at ht ⊢
  exact genSubs_slice_closed ht a hsub hL

/-- Every source tuple of `mkSources idx rows` has row number at least
`idx + 2`. -/
lemma mkSources_rowNum_lb : ∀ (rows : List (List PyVal)) (idx : Nat),
    ∀ t ∈ mkSources idx rows, idx + 2 ≤ t.rowNum := by
  intro rows
  induction rows with
  | nil => intro idx t ht; simp [mkSources] at ht
  | cons r rest ih =>
    intro idx t ht
    rcases List.mem_cons.mp ht with he | hm
    · subst he; simp [rowToSource]
    · have := ih (idx + 1) t hm
      omega

/-- Row numbers are strictly increasing along `mkSources`: two distinct
source rows never share a csv row number. -/
lemma mkSources_pairwise (rows : List (List PyVal)) :
    ∀ idx, List.Pairwise (fun a b => a.rowNum < b.rowNum) (mkSources idx rows) := by
  induction rows with
  | nil => intro idx; simp [mkSources]
  | cons r rest ih =>
    intro idx
    refine List.Pairwise.cons ?_ (ih (idx + 1))
    intro t ht
    have := mkSources_rowNum_lb rest (idx + 1) t ht
    simp only [rowToSource]
    omega

/-- Supporting rows of any sequence have pairwise distinct row numbers. -/
lemma supportOf_pairwise (dataRows : List (List PyVal)) (L : Nat) (sub : List Char) :
    List.Pairwise (fun a b => a.rowNum < b.rowNum) (supportOf dataRows L sub) := by
  unfold supportOf keptSources
  exact ((mkSources_pairwise dataRows 0).filter _).filter _

/-- A non-trivial support yields a non-empty occurrence list (line 64's
`if occurrences_list` check never discards a supported sequence). -/
lemma supportOf_occs_nonempty {dataRows : List (List PyVal)} {L : Nat}
    {sub : List Char} (h : supportOf dataRows L sub ≠ []) :
    occurrencesOf dataRows L sub ≠ [] := by
  obtain ⟨t, ht⟩ := List.exists_mem_of_ne_nil _ h
  have hmem := List.mem_filter.mp ht
  have hGen : sub ∈ genSubs t.sentence L := by
    have := hmem.2
    rwa [decide_eq_true_eq] at this
  obtain ⟨_, i, hile, hocc⟩ := mem_genSubs_length t.sentence L sub hGen
  have hio : i ∈ occurrencesIn t.sentence sub :=
    occurrencesIn_complete t.sentence sub i hocc hile
  intro hnil
  have hx : (⟨t.rowNum, t.taskId, t.sentence, i⟩ : Occ) ∈
      occurrencesOf dataRows L sub := by
    unfold occurrencesOf
    rw [List.mem_flatMap]
    exact ⟨t, ht, List.mem_map.mpr ⟨i, hio, rfl⟩⟩
  rw [hnil] at hx
  simp at hx

/-- The emission test of lines 49-65 reduces to the support count: a
sequence is a key of the returned dict iff more than one distinct source
row generated it.  No other condition (and no validity check on `L`) is
applied. -/
lemma isEmitted_eq_support (dataRows : List (List PyVal)) (L : Nat)
    (sub : List Char) :
    isEmitted dataRows L sub =
      decide (2 ≤ (supportOf dataRows L sub).length) := by
  unfold isEmitted
  by_cases h : 2 ≤ (supportOf dataRows L sub).length
  · have hne : supportOf dataRows L sub ≠ [] := by
      intro e; rw [e] at h; simp at h
    simp [h, supportOf_occs_nonempty hne]
  · simp [h]

/-- An emitted sequence is generated, hence at least `L` long, and has
non-empty support. -/
lemma isEmitted_length {dataRows : List (List PyVal)} {L : Nat}
    {sub : List Char} (h : isEmitted dataRows L sub = true) :
    L ≤ sub.length ∧ 2 ≤ (supportOf dataRows L sub).length := by
  rw [isEmitted_eq_support, decide_eq_true_eq] at h
  refine ⟨?_, h⟩
  have hne : supportOf dataRows L sub ≠ [] := by
    intro e; rw [e] at h; simp at h
  obtain ⟨t, ht⟩ := List.exists_mem_of_ne_nil _ hne
  have hmem := List.mem_filter.mp ht
  have hGen : sub ∈ genSubs t.sentence L := by
    have := hmem.2
    rwa [decide_eq_true_eq] at this
  exact (mem_genSubs_length t.sentence L sub hGen).1

/-- Python `sorted(l, reverse=True)` yields a weakly descending list. -/
lemma sortDesc_sorted (l : List Nat) : List.Sorted (· ≥ ·) (sortDesc l) :=
  List.sorted_insertionSort _ l

/-- Sorting permutes, so membership is preserved. -/
lemma sortDesc_perm (l : List Nat) : (sortDesc l).Perm l :=
  List.perm_insertionSort _ l

/-- On a weakly descending list, the first element not exceeding `len`
dominates every element not exceeding `len`. -/
lemma find?_ge_sorted (len : Nat) :
    ∀ (D : List Nat), List.Sorted (· ≥ ·) D →
      ∀ t, D.find? (fun u => decide (u ≤ len)) = some t →
        ∀ u ∈ D, u ≤ len → u ≤ t := by
  intro D
  induction D with
  | nil => intro _ t h; simp at h
  | cons d rest ih =>
    intro hs t hf u hu hul
    rcases List.sorted_cons.mp hs with ⟨hd_ge, hrest⟩
    by_cases hd : d ≤ len
    · have ht : t = d := by
        rw [List.find?_cons_of_pos _ (by simpa using hd)] at hf
        exact (Option.some.inj hf).symm
      subst ht
      rcases List.mem_cons.mp hu with he | hm
      · subst he; exact Nat.le_refl _
      · exact hd_ge u hm
    · have hf' : rest.find? (fun u => decide (u ≤ len)) = some t := by
        rw [List.find?_cons_of_neg _ (by simpa using hd)] at hf
        exact hf
      rcases List.mem_cons.mp hu with he | hm
      · subst he; omega
      · exact ih hrest t hf' u hm hul

/-- The bucketizer returns no bucket exactly when every threshold
exceeds the length. -/
lemma bucketOf_none_iff (T : List Nat) (len : Nat) :
    bucketOf T len = none ↔ ∀ t ∈ T, len < t := by
  unfold bucketOf
  rw [List.find?_eq_none]
  constructor
  · intro h t ht
    have := h t ((sortDesc_perm T).mem_iff.mpr ht)
    simp at this
    omega
  · intro h t ht
    have := h t ((sortDesc_perm T).mem_iff.mp ht)
    simp
    omega

/-- The export row built from a pair is determined by its dedup key. -/
lemma rKey_mkExportRow_inj {s1 s2 : List Char} {o1 o2 : Occ}
    (h : rKey (mkExportRow s1 o1) = rKey (mkExportRow s2 o2)) :
    mkExportRow s1 o1 = mkExportRow s2 o2 := by
  unfold rKey mkExportRow at *
  simp only [Prod.mk.injEq] at h
  obtain ⟨h1, h2, h3, h4⟩ := h
  simp [h1, h2, h3, h4]

/-- Membership in the export loop: a row appears iff it is the export
row of some remaining pair and its dedup key is not yet seen. -/
lemma exportLoop_mem :
    ∀ (pairs : List (List Char × Occ))
      (seen : List (List Char × Nat × List Char × List Char)) (r : ExportRow),
      r ∈ exportLoop pairs seen ↔
        ((∃ p ∈ pairs, r = mkExportRow p.1 p.2) ∧ rKey r ∉ seen) := by
  intro pairs
  induction pairs with
  | nil =>
    intro seen r
    constructor
    · intro h
      exact absurd h (List.not_mem_nil r)
    · rintro ⟨⟨q, hq, _⟩, _⟩
      exact absurd hq (List.not_mem_nil q)
  | cons p rest ih =>
    intro seen r
    obtain ⟨seq, o⟩ := p
    unfold exportLoop
    by_cases hk : rKey (mkExportRow seq o) ∈ seen
    · rw [if_pos hk, ih]
      constructor
      · rintro ⟨⟨q, hq, he⟩, hns⟩
        exact ⟨⟨q, List.mem_cons_of_mem _ hq, he⟩, hns⟩
      · rintro ⟨⟨q, hq, he⟩, hns⟩
        rcases List.mem_cons.mp hq with he' | hm
        · rw [he'] at he
          rw [he] at hns
          exact absurd hk hns
        · exact ⟨⟨q, hm, he⟩, hns⟩
    · rw [if_neg hk, List.mem_cons, ih]
      constructor
      · rintro (he | ⟨⟨q, hq, heq⟩, hns⟩)
        · subst he
          exact ⟨⟨(seq, o), List.mem_cons_self _ _, rfl⟩, hk⟩
        · refine ⟨⟨q, List.mem_cons_of_mem _ hq, heq⟩,
            fun hs => hns (List.mem_cons_of_mem _ hs)⟩
      · rintro ⟨⟨q, hq, heq⟩, hns⟩
        rcases List.mem_cons.mp hq with he' | hm
        · left; rw [heq, he']
        · by_cases hkey : rKey r = rKey (mkExportRow seq o)
          · left
            rw [heq] at hkey ⊢
            exact rKey_mkExportRow_inj hkey
          · right
            refine ⟨⟨q, hm, heq⟩, ?_⟩
            intro hs
            rcases List.mem_cons.mp hs with h1 | h2
            · exact hkey h1
            · exact hns h2

/-- The export loop never emits the same row twice. -/
lemma exportLoop_nodup :
    ∀ (pairs : List (List Char × Occ))
      (seen : List (List Char × Nat × List Char × List Char)),
      (exportLoop pairs seen).Nodup := by
  intro pairs
  induction pairs with
  | nil => intro seen; simp [exportLoop]
  | cons p rest ih =>
    intro seen
    obtain ⟨seq, o⟩ := p
    unfold exportLoop
    by_cases hk : rKey (mkExportRow seq o) ∈ seen
    · rw [if_pos hk]; exact ih seen
    · rw [if_neg hk]
      rw [List.nodup_cons]
      refine ⟨?_, ih _⟩
      intro hmem
      have := (exportLoop_mem rest _ _).mp hmem
      exact this.2 (List.mem_cons_self _ _)

/-- A list of length at least two whose elements are pairwise related
contains a related pair. -/
lemma exists_two_of_pairwise {α : Type} {R : α → α → Prop} {l : List α}
    (hp : List.Pairwise R l) (h2 : 2 ≤ l.length) :
    ∃ a b, a ∈ l ∧ b ∈ l ∧ R a b := by
  cases l with
  | nil => simp at h2
  | cons a l' =>
    cases l' with
    | nil => simp at h2
    | cons b tl =>
      rcases List.pairwise_cons.mp hp with ⟨hab, _⟩
      exact ⟨a, b, List.mem_cons_self _ _,
        List.mem_cons_of_mem _ (List.mem_cons_self _ _),
        hab b (List.mem_cons_self _ _)⟩

/-- C2: Cross-record support invariant.  Every sequence emitted by
`find_repeated_sequences` is supported by two source rows with distinct
csv row numbers (record ids), and it occurs in both of their sentences;
conversely a sequence whose entire support lies in a single record id is
never emitted, regardless of how often it recurs inside that record. -/
theorem cross_record_support (dataRows : List (List PyVal)) (L : Nat)
    (sub : List Char) :
    (isEmitted dataRows L sub = true →
      ∃ t1 t2, t1 ∈ supportOf dataRows L sub ∧ t2 ∈ supportOf dataRows L sub ∧
        t1.rowNum ≠ t2.rowNum ∧
        (∃ i, occursAt t1.sentence sub i = true) ∧
        (∃ j, occursAt t2.sentence sub j = true))
  ∧ (∀ r : Nat, (∀ t ∈ supportOf dataRows L sub, t.rowNum = r) →
      isEmitted dataRows L sub = false) := by
  have hpw := supportOf_pairwise dataRows L sub
  have hocc : ∀ t ∈ supportOf dataRows L sub,
      ∃ i, occursAt t.sentence sub i = true := by
    intro t ht
    have hg := (List.mem_filter.mp ht).2
    rw [decide_eq_true_eq] at hg
    obtain ⟨_, i, _, hi⟩ := mem_genSubs_length _ _ _ hg
    exact ⟨i, hi⟩
  constructor
  · intro h
    obtain ⟨t1, t2, h1, h2m, hlt⟩ :=
      exists_two_of_pairwise hpw (isEmitted_length h).2
    exact ⟨t1, t2, h1, h2m, by omega, hocc t1 h1, hocc t2 h2m⟩
  · intro r hr
    rw [isEmitted_eq_support, decide_eq_false_iff_not]
    intro h2
    obtain ⟨t1, t2, h1, h2m, hlt⟩ := exists_two_of_pairwise hpw h2
    have e1 := hr t1 h1
    have e2 := hr t2 h2m
    omega

/-- Witness for C2 at a concrete emitted input. -/
theorem cross_record_support_witness :
    ∃ t1 t2, t1 ∈ supportOf exRows 1 ['a'] ∧ t2 ∈ supportOf exRows 1 ['a'] ∧
      t1.rowNum ≠ t2.rowNum ∧
      (∃ i, occursAt t1.sentence ['a'] i = true) ∧
      (∃ j, occursAt t2.sentence ['a'] j = true) :=
  (cross_record_support exRows 1 ['a']).1 (by decide)

/-- C3: Occurrence correctness.  Every reported occurrence of an emitted
sequence really is that sequence at that offset of the carried sentence;
the offsets reported for each supporting record are strictly ascending;
and every offset at which the sequence occurs in a supporting record's
sentence is reported (overlapping occurrences included). -/
theorem occurrence_correctness (dataRows : List (List PyVal)) (L : Nat)
    (sub : List Char) (hL : 1 ≤ L) (hE : isEmitted dataRows L sub = true) :
    (∀ o ∈ occurrencesOf dataRows L sub,
        (o.sentence.drop o.off).take sub.length = sub)
  ∧ (∀ t ∈ supportOf dataRows L sub,
        List.Pairwise (· < ·) (occurrencesIn t.sentence sub))
  ∧ (∀ t ∈ supportOf dataRows L sub, ∀ j,
        (t.sentence.drop j).take sub.length = sub →
        (⟨t.rowNum, t.taskId, t.sentence, j⟩ : Occ) ∈
          occurrencesOf dataRows L sub) := by
  have hsub_len : 1 ≤ sub.length := le_trans hL (isEmitted_length hE).1
  refine ⟨?_, ?_, ?_⟩
  · intro o ho
    unfold occurrencesOf at ho
    rw [List.mem_flatMap] at ho
    obtain ⟨t, ht, ho⟩ := ho
    rw [List.mem_map] at ho
    obtain ⟨j, hj, he⟩ := ho
    have hs := (occurrencesIn_sound t.sentence sub j hj).2
    unfold occursAt sublistAt at hs
    rw [decide_eq_true_eq] at hs
    subst he
    exact hs
  · intro t _
    exact occurrencesIn_pairwise t.sentence sub
  · intro t ht j hj
    have hjlen : j + sub.length ≤ t.sentence.length := by
      have hc := congrArg List.length hj
      rw [List.length_take, List.length_drop] at hc
      omega
    have hocc : occursAt t.sentence sub j = true := by
      unfold occursAt sublistAt
      rw [decide_eq_true_eq]
      exact hj
    have hio := occurrencesIn_complete t.sentence sub j hocc (by omega)
    unfold occurrencesOf
    rw [List.mem_flatMap]
    exact ⟨t, ht, List.mem_map.mpr ⟨j, hio, rfl⟩⟩

/-- Witness for C3 at a concrete emitted input. -/
theorem occurrence_correctness_witness :
    (∀ o ∈ occurrencesOf exRows 1 ['a'],
        (o.sentence.drop o.off).take (['a'] : List Char).length = ['a'])
  ∧ (∀ t ∈ supportOf exRows 1 ['a'],
        List.Pairwise (· < ·) (occurrencesIn t.sentence ['a']))
  ∧ (∀ t ∈ supportOf exRows 1 ['a'], ∀ j,
        (t.sentence.drop j).take (['a'] : List Char).length = ['a'] →
        (⟨t.rowNum, t.taskId, t.sentence, j⟩ : Occ) ∈
          occurrencesOf exRows 1 ['a']) :=
  occurrence_correctness exRows 1 ['a'] (by decide) (by decide)

/-- C5: Length invariant.  Every emitted sequence has length at least
`L`, and a record whose sentence is shorter than `L` is dropped by the
guard of line 35, so it contributes no candidate substrings and no
occurrences. -/
theorem length_invariant (dataRows : List (List PyVal)) (L : Nat)
    (sub : List Char) (_hL : 1 ≤ L) (hE : isEmitted dataRows L sub = true) :
    L ≤ sub.length ∧
      ∀ t : SourceTuple, t.sentence.length < L → t ∉ keptSources dataRows L := by
  refine ⟨(isEmitted_length hE).1, ?_⟩
  intro t hshort hmem
  have hk := (List.mem_filter.mp hmem).2
  unfold keepRow pdIsnaStr at hk
  simp at hk
  omega

/-- Witness for C5 at a concrete emitted input. -/
theorem length_invariant_witness :
    1 ≤ (['a'] : List Char).length ∧
      ∀ t : SourceTuple, t.sentence.length < 1 → t ∉ keptSources exRows 1 :=
  length_invariant exRows 1 ['a'] (by decide) (by decide)

/-- C10: Downward closure of the emitted set.  If `S` is emitted then
every contiguous slice of `S` of length at least `L` is also emitted,
and every record supporting `S` supports the slice. -/
theorem downward_closure (dataRows : List (List PyVal)) (L : Nat)
    (S S' : List Char) (hE : isEmitted dataRows L S = true)
    (hsub : ∃ a, sublistAt S a S'.length = S') (hL : L ≤ S'.length) :
    isEmitted dataRows L S' = true ∧
      ∀ t ∈ supportOf dataRows L S, t ∈ supportOf dataRows L S' := by
  obtain ⟨a, ha⟩ := hsub
  have hsl := supportOf_mono dataRows L a ha hL
  have h2 := (isEmitted_length hE).2
  constructor
  · rw [isEmitted_eq_support, decide_eq_true_eq]
    exact le_trans h2 hsl.length_le
  · intro t ht
    exact hsl.subset ht

/-- Witness for C10 at a concrete emitted input. -/
theorem downward_closure_witness :
    isEmitted exRows 1 ['b'] = true ∧
      ∀ t ∈ supportOf exRows 1 ['a', 'b'], t ∈ supportOf exRows 1 ['b'] :=
  downward_closure exRows 1 ['a', 'b'] ['b'] (by decide) ⟨1, by decide⟩ (by decide)

/-- C1 counterexample: with rows "ab"/"ab" and `L = 1` the function
emits both "a" and "ab"; "a" is a proper substring of "ab" and its
supporting record ids are exactly those of "ab", refuting maximality of
the emitted set. -/
theorem repeat_maximality_cex :
    isEmitted exRows 1 ['a'] = true ∧
    isEmitted exRows 1 ['a', 'b'] = true ∧
    sublistAt ['a', 'b'] 0 1 = ['a'] ∧
    (['a'] : List Char).length < (['a', 'b'] : List Char).length ∧
    supportIds exRows 1 ['a', 'b'] = supportIds exRows 1 ['a'] := by
  decide

/-- C1 amended: the function emits every qualifying substring, not only
maximal ones.  Whenever a sequence `S` of length strictly above `L` is
emitted, some strictly shorter slice of `S` (still of length at least
`L`) is also emitted, and its supporting rows include all of `S`'s. -/
theorem repeat_maximality_amended (dataRows : List (List PyVal)) (L : Nat)
    (S : List Char) (hE : isEmitted dataRows L S = true) (hlen : L < S.length) :
    ∃ S', S'.length < S.length ∧ (∃ a, sublistAt S a S'.length = S') ∧
      L ≤ S'.length ∧ isEmitted dataRows L S' = true ∧
      ∀ t ∈ supportOf dataRows L S, t ∈ supportOf dataRows L S' := by
  have hT : (S.take (S.length - 1)).length = S.length - 1 := by
    rw [List.length_take]
    omega
  have hslice : sublistAt S 0 (S.take (S.length - 1)).length = S.take (S.length - 1) := by
    rw [hT]
    unfold sublistAt
    rw [List.drop_zero]
  have hL' : L ≤ (S.take (S.length - 1)).length := by omega
  have hsl := supportOf_mono dataRows L 0 hslice hL'
  have h2 := (isEmitted_length hE).2
  refine ⟨S.take (S.length - 1), by omega, ⟨0, hslice⟩, hL', ?_, ?_⟩
  · rw [isEmitted_eq_support, decide_eq_true_eq]
    exact le_trans h2 hsl.length_le
  · intro t ht
    exact hsl.subset ht

/-- Witness for the amended C1 at a concrete emitted input. -/
theorem repeat_maximality_amended_witness :
    ∃ S', S'.length < (['a', 'b'] : List Char).length ∧
      (∃ a, sublistAt ['a', 'b'] a S'.length = S') ∧ 1 ≤ S'.length ∧
      isEmitted exRows 1 S' = true ∧
      ∀ t ∈ supportOf exRows 1 ['a', 'b'], t ∈ supportOf exRows 1 S' :=
  repeat_maximality_amended exRows 1 ['a', 'b'] (by decide) (by decide)

/-- C4: Bucket exclusivity.  For a strictly ascending threshold list,
the categorization loop of lines 112-128 assigns a sequence of length
`len` to the greatest threshold not exceeding `len` (the `break` makes
the assignment unique), and assigns no bucket exactly when every
threshold exceeds `len`. -/
theorem bucket_exclusivity (T : List Nat) (_hT : List.Sorted (· < ·) T)
    (len : Nat) :
    (∀ t, bucketOf T len = some t →
        t ∈ T ∧ t ≤ len ∧ ∀ u ∈ T, u ≤ len → u ≤ t)
  ∧ (bucketOf T len = none ↔ ∀ t ∈ T, len < t) := by
  constructor
  · intro t hf
    unfold bucketOf at hf
    have hmem : t ∈ T := (sortDesc_perm T).mem_iff.mp (List.mem_of_find?_eq_some hf)
    have hle : t ≤ len := by
      have := List.find?_some hf
      simpa using this
    refine ⟨hmem, hle, ?_⟩
    intro u hu hul
    exact find?_ge_sorted len (sortDesc T) (sortDesc_sorted T) t hf u
      ((sortDesc_perm T).mem_iff.mpr hu) hul
  · exact bucketOf_none_iff T len

/-- Witness for C4: a 45-character sequence lands in the 40 bucket of
the configured thresholds, which dominates all satisfied thresholds. -/
theorem bucket_exclusivity_witness :
    40 ∈ CHECK_LENGTHS ∧ 40 ≤ 45 ∧ ∀ u ∈ CHECK_LENGTHS, u ≤ 45 → u ≤ 40 :=
  (bucket_exclusivity CHECK_LENGTHS (by decide) 45).1 40 (by decide)

/-- C6 counterexample: called with the invalid minimum length `L = 0`,
the engine does not reject the input: it runs the detection computation
and emits a match. -/
theorem invalid_threshold_cex :
    (0 : Nat) < 1 ∧ isEmitted exRows 0 ['a'] = true := by
  decide

/-- C6 amended: `find_repeated_sequences` performs no validation of its
minimum-length argument.  For every `L`, including `L < 1`, emission is
exactly the cross-record support condition; no rejection path exists
(the threshold list is the hard-coded, non-empty `CHECK_LENGTHS`). -/
theorem no_entry_validation (dataRows : List (List PyVal)) (L : Nat)
    (sub : List Char) :
    isEmitted dataRows L sub =
      decide (2 ≤ (supportOf dataRows L sub).length) ∧
    CHECK_LENGTHS ≠ [] :=
  ⟨isEmitted_eq_support dataRows L sub, by decide⟩

/-- C7 counterexample: one category containing the sequence "aa" with
two occurrences at distinct offsets 0 and 1 of the same record yields a
single export row, because the dedup key of line 168 omits the start
offset (which is also absent from the exported fields). -/
theorem export_dedup_cex :
    (⟨2, ['t'], ['a', 'a', 'a'], 0⟩ : Occ) ∈ exCategory.flatMap Prod.snd ∧
    (⟨2, ['t'], ['a', 'a', 'a'], 1⟩ : Occ) ∈ exCategory.flatMap Prod.snd ∧
    (exportRows exCategory).length = 1 := by
  decide

/-- C7 amended: the aggregator emits rows with fields sequence, length,
record id, label and full text (no start offset), deduplicated on the
tuple (sequence, record id, label, full text): the output rows are
exactly one per distinct such tuple among the (match, occurrence) pairs,
with no duplicates. -/
theorem export_row_contract (cat : List (List Char × List Occ)) :
    (exportRows cat).Nodup ∧
    ∀ r : ExportRow, r ∈ exportRows cat ↔
      ∃ p ∈ cat, ∃ o ∈ p.2, r = mkExportRow p.1 o := by
  constructor
  · exact exportLoop_nodup _ _
  · intro r
    unfold exportRows
    rw [exportLoop_mem]
    constructor
    · rintro ⟨⟨q, hq, he⟩, _⟩
      rw [List.mem_flatMap] at hq
      obtain ⟨p, hp, hq2⟩ := hq
      rw [List.mem_map] at hq2
      obtain ⟨o, ho, he2⟩ := hq2
      exact ⟨p, hp, o, ho, by rw [he, ← he2]⟩
    · rintro ⟨p, hp, o, ho, he⟩
      refine ⟨⟨(p.1, o), ?_, he⟩, ?_⟩
      · rw [List.mem_flatMap]
        exact ⟨p, hp, List.mem_map.mpr ⟨o, ho, rfl⟩⟩
      · exact List.not_mem_nil _

/-- C8 counterexample: `find_repeated_sequences` has no mode selector;
its single behavior is not the fixed-window grouping: with rows
"abc"/"abc" and `L = 2` it emits the length-3 sequence "abc", which no
length-2 window grouping retains. -/
theorem fixed_window_cex :
    isEmitted exRowsAbc 2 ['a', 'b', 'c'] = true ∧
    fixedWindowEmitted exRowsAbc 2 ['a', 'b', 'c'] = false := by
  decide

/-- Characterisation of the length-`L` windows of a sentence. -/
lemma mem_windowsOf_iff (sent : List Char) (L : Nat) (sub : List Char) :
    sub ∈ windowsOf sent L ↔
      ∃ i, i + L ≤ sent.length ∧ sublistAt sent i L = sub := by
  unfold windowsOf
  rw [List.mem_map]
  constructor
  · rintro ⟨i, hi, he⟩
    rw [List.mem_range] at hi
    exact ⟨i, by omega, he⟩
  · rintro ⟨i, hi, he⟩
    exact ⟨i, by rw [List.mem_range]; omega, he⟩

/-- C8 amended: the engine has a single operating mode; restricted to
sequences of length exactly `L`, its emission test coincides with the
spec's fixed-window grouping, but no selector exists and sequences
longer than `L` are also emitted. -/
theorem fixed_window_amended (dataRows : List (List PyVal)) (L : Nat)
    (sub : List Char) (hlen : sub.length = L) :
    isEmitted dataRows L sub = fixedWindowEmitted dataRows L sub := by
  rw [isEmitted_eq_support]
  unfold fixedWindowEmitted supportOf keptSources
  rw [List.filter_filter]
  have hfe : ∀ t : SourceTuple,
      (decide (sub ∈ genSubs t.sentence L) && keepRow L t) =
        decide (sub ∈ windowsOf t.sentence L) := by
    intro t
    unfold keepRow pdIsnaStr
    simp only [Bool.not_false, Bool.true_and]
    rw [← Bool.decide_and, decide_eq_decide]
    constructor
    · rintro ⟨hg, hk⟩
      rw [mem_genSubs_iff] at hg
      obtain ⟨i, k, hLk, hik, he⟩ := hg
      have hks : sub.length = k := by
        rw [← he]
        unfold sublistAt
        rw [List.length_take, List.length_drop]
        omega
      rw [mem_windowsOf_iff]
      refine ⟨i, by omega, ?_⟩
      rw [← hlen, hks]
      exact he
    · intro hw
      rw [mem_windowsOf_iff] at hw
      obtain ⟨i, hi, he⟩ := hw
      constructor
      · rw [mem_genSubs_iff]
        exact ⟨i, L, Nat.le_refl _, hi, he⟩
      · omega
  rw [List.filter_congr (fun t _ => hfe t), hlen]
  simp

/-- Witness for the amended C8 at a concrete input of matching length. -/
theorem fixed_window_amended_witness :
    isEmitted exRowsAbc 2 ['a', 'b'] = fixedWindowEmitted exRowsAbc 2 ['a', 'b'] :=
  fixed_window_amended exRowsAbc 2 ['a', 'b'] (by decide)

/-- C9: evaluation at the failing input.  Two rows whose text cell is
the float NaN are not skipped when `L = 3`: the dead `pd.isna` check of
line 35 (applied after `str()` conversion) lets the string "nan" enter
detection, and "nan" is emitted with both rows as support.  For `L = 4`
(and the app's configured `L = 20`) the same rows are silently dropped
by the length guard, producing no kept record and no candidates. -/
theorem nan_text_emitted :
    isEmitted nanRows 3 ['n', 'a', 'n'] = true ∧
    isEmitted nanRows 4 ['n', 'a', 'n'] = false ∧
    keptSources nanRows 4 = [] := by
  decide

/-- Witness for the amended C6 at a concrete input. -/
theorem no_entry_validation_witness :
    isEmitted exRows 0 ['b'] = decide (2 ≤ (supportOf exRows 0 ['b']).length) ∧
    CHECK_LENGTHS ≠ [] :=
  no_entry_validation exRows 0 ['b']

/-- Witness for the amended C7 at a concrete category. -/
theorem export_row_contract_witness :
    (exportRows exCategory).Nodup ∧
    ∀ r : ExportRow, r ∈ exportRows exCategory ↔
      ∃ p ∈ exCategory, ∃ o ∈ p.2, r = mkExportRow p.1 o :=
  export_row_contract exCategory


end MrcRpc
